import Mathlib

/-!
Shallow embedding of the `nginx-config` value scanner (`src/value.rs`) and of
the `error_page` / `listen` directive rules (`src/core.rs`).

Conventions of the embedding:
* Rust `String` / `&str` values are modelled as `List Char` (the character
  sequence).  All slice boundaries in the source come from `char_indices`,
  so positions are always character boundaries and the character-list view
  is faithful.  Lean string literals enter statements through `String.data`.
* Fallible Rust code (`Result<_, Error<..>>`, `?`) is modelled with
  `Except String`, the error payload being the human-readable message the
  source builds through `Error::unexpected_message`.
* The scanners of `src/value.rs` are written with an explicit fuel counter
  so that they are structurally recursive and kernel-evaluable.  Every
  entry point passes `length + 1` fuel, and every recursive call consumes
  one fuel unit while consuming at least one input character, so the
  out-of-fuel branch is unreachable from the entry points (all lemmas carry
  the corresponding `length < fuel` bound).
* `Value.position` (diagnostics only, never inspected by any rule) is
  omitted; a `Value` is its list of parts.
* The source's `unimplemented!()` panic on the brace-variable form and the
  out-of-range byte-slice panic in the `listen` address parser are both
  modelled as errors: no claim distinguishes a panic from a parse failure,
  and neither outcome is an accepted parse.
-/

deriving instance DecidableEq for Except

namespace NginxConfig

/-- `value::Item` from `src/value.rs`: one part of a `Value`, either literal
text or a variable reference. -/
inductive Item where
  | Literal (text : List Char)
  | Variable (name : List Char)
deriving DecidableEq

/-- `value::Value` from `src/value.rs`, minus the diagnostics-only source
position: the ordered parts of one scanned token. -/
structure Value where
  data : List Item
deriving DecidableEq

/-- The single-quote character (ASCII 39). -/
def squote : Char := Char.ofNat 39

/-- Variable names must start with a letter or underscore
(`'a'...'z' | 'A'...'Z' | '_'` in both scanners of `src/value.rs`). -/
def isVarStart (c : Char) : Bool :=
  (('a' ≤ c ∧ c ≤ 'z') ∨ ('A' ≤ c ∧ c ≤ 'Z') ∨ c = '_')

/-- Variable name characters: letters, digits and underscore
(`'a'...'z' | 'A'...'Z' | '_' | '0'...'9'` in `src/value.rs`). -/
def isVarChar (c : Char) : Bool :=
  (('a' ≤ c ∧ c ≤ 'z') ∨ ('A' ≤ c ∧ c ≤ 'Z') ∨ c = '_' ∨ ('0' ≤ c ∧ c ≤ '9'))

/-- Push a pending literal run: both scanners only emit a `Literal` when the
run is non-empty (`idx != cur_slice` / `cur_slice.len() > 0`). -/
def flushLit (l : List Char) : List Item :=
  if l = [] then [] else [Item.Literal l]

/-- `Value::scan_raw` from `src/value.rs` (lines 43-99), one loop iteration
per fuel unit.  `rest` is the unread input, `prev` is `prev_char`, `acc`
holds the characters of the current literal slice (`value[cur_slice..idx]`
in the source: every character the loop consumed since the last flush,
which is exactly what the byte-slice denotes), `buf` is the output buffer.
The escape arm resets `prev` to `' '` and keeps the character inside the
current slice, as the source's `continue` does. -/
def scanRawAux (fuel : Nat) (rest : List Char) (prev : Char)
    (acc : List Char) (buf : List Item) : Except String (List Item) :=
  match fuel with
  | 0 => .error "out of fuel"
  | fuel + 1 =>
    match rest with
    | [] => .ok (buf ++ flushLit acc)
    | c :: rs =>
      if prev = '\\' then
        scanRawAux fuel rs ' ' (acc ++ [c]) buf
      else if c = '$' then
        match rs with
        | [] => .error "bare $ in expression"
        | f :: rs₂ =>
          if f = '{' then
            .error "unimplemented"
          else if isVarStart f then
            scanRawAux fuel (rs₂.dropWhile isVarChar) '$' []
              (buf ++ flushLit acc ++ [Item.Variable (f :: rs₂.takeWhile isVarChar)])
          else
            .error ("variable name starts with bad char " ++ String.mk [f])
      else
        scanRawAux fuel rs c (acc ++ [c]) buf

/-- Entry point of raw-mode scanning (`Value::scan_raw`). -/
def scanRaw (s : List Char) : Except String (List Item) :=
  scanRawAux (s.length + 1) s ' ' [] []

/-- `Value::scan_quoted` from `src/value.rs` (lines 101-169), one loop
iteration per fuel unit.  `q` is the opening quote, `rest` the unread input
(after the skipped opening quote), `curSlice` is the `cur_slice` string
being pushed character by character.  Note the first arm: the source's
escape arm does `cur_slice.push(cur_char); continue;`, skipping the
`prev_char = cur_char` update at the bottom of the loop, so `prev` is left
unchanged (it stays `'\\'`) — this is reproduced faithfully.  The closing
arm's `idx + 1 != value.len()` test is `rest` non-emptiness here, since the
iterator is consumed strictly left to right. -/
def scanQuotedAux (q : Char) (fuel : Nat) (rest : List Char) (prev : Char)
    (curSlice : List Char) (buf : List Item) : Except String (List Item) :=
  match fuel with
  | 0 => .error "out of fuel"
  | fuel + 1 =>
    match rest with
    | [] => .error "unclosed quote"
    | c :: rs =>
      if prev = '\\' then
        scanQuotedAux q fuel rs prev (curSlice ++ [c]) buf
      else if (c = '"' ∨ c = squote) ∧ c = q then
        if rs = [] then .ok (buf ++ flushLit curSlice)
        else .error "quote closes prematurely"
      else if c = '$' then
        match rs with
        | [] => .error "bare $ in expression"
        | f :: rs₂ =>
          if f = '{' then
            .error "unimplemented"
          else if isVarStart f then
            match rs₂.dropWhile isVarChar with
            | [] => .error "unclosed quote"
            | _ :: _ =>
              scanQuotedAux q fuel (rs₂.dropWhile isVarChar) '$' []
                (buf ++ flushLit curSlice ++ [Item.Variable (f :: rs₂.takeWhile isVarChar)])
          else
            .error ("variable name starts with bad char " ++ String.mk [f])
      else
        scanQuotedAux q fuel rs c (curSlice ++ [c]) buf

/-- Entry point of quoted-mode scanning (`Value::scan_quoted`): the source
skips the opening quote with `chiter.next()` before the loop. -/
def scanQuoted (q : Char) (s : List Char) : Except String (List Item) :=
  scanQuotedAux q (s.length + 1) (s.drop 1) ' ' [] []

/-- `Value::parse` from `src/value.rs` (lines 30-41): dispatch on the
leading character into quoted or raw mode. -/
def valueParse (s : List Char) : Except String Value :=
  (match s with
   | [] => scanRaw s
   | c :: _ =>
     if c = '"' then scanQuoted '"' s
     else if c = squote then scanQuoted squote s
     else scanRaw s).map Value.mk

/-! ## Value serializer (`src/value.rs`, lines 173-216) -/

/-- The "special" characters of `Value::has_specials`: space, semicolon,
carriage return, line feed, horizontal tab. -/
def isSpecial (c : Char) : Bool :=
  c = ' ' ∨ c = ';' ∨ c = '\r' ∨ c = '\n' ∨ c = '\t'

/-- `Value::has_specials` (lines 173-191): scan every `Literal` part for a
special character; `Variable` parts are skipped. -/
def hasSpecials (v : Value) : Bool :=
  v.data.any fun i =>
    match i with
    | .Literal x => x.any isSpecial
    | .Variable _ => false

/-- One `f.write` sequence of `Displayable for Value` (lines 199-204 and
208-213): a `Literal` writes its text, a `Variable` writes `$name`.  The
`Formatter` is modelled as the accumulated output characters. -/
def writeItem (acc : List Char) (i : Item) : List Char :=
  match i with
  | .Literal t => acc ++ t
  | .Variable n => acc ++ '$' :: n

/-- `Displayable for Value` (lines 194-216): if a special character occurs
in a literal part the whole rendering is wrapped in double quotes,
otherwise the parts are written bare. -/
def displayValue (v : Value) : List Char :=
  if hasSpecials v then (v.data.foldl writeItem ['"']) ++ ['"']
  else v.data.foldl writeItem []

/-! ## `error_page` directive rule (`src/core.rs`, lines 15-78) -/

/-- `grammar::Code`, external to `src/`.  `Code::parse` classifies a
literal status-code string as a redirect or a normal code; the rule only
consumes it through the `CodeParser` interface below.  Modelled from the
spec: "given a literal string, returns either a `redirect` code or a
`normal` code, or fails with an invalid-format error". -/
inductive Code where
  | Redirect (code : Nat)
  | Normal (code : Nat)
deriving DecidableEq

/-- `Code::as_code`: the numeric code carried by either class.  Modelled
from the spec ("its resulting code recorded in `codes`"). -/
def Code.as_code : Code → Nat
  | .Redirect c => c
  | .Normal c => c

/-- The external response-code classifier interface (`Code::parse`).  The
`error_page` rule is parameterised over it, so every theorem below holds
for any classifier. -/
def CodeParser : Type := List Char → Except String Code

/-- A concrete sample classifier used only to instantiate witnesses and
counterexamples: parses a decimal number, 3xx codes are redirects.
Modelled from the spec's interface of the external classifier. -/
def sampleCodeParse : CodeParser := fun s =>
  if s ≠ [] ∧ s.all Char.isDigit then
    let n := s.foldl (fun n c => n * 10 + (c.toNat - 48)) 0
    if 300 ≤ n ∧ n < 400 then .ok (.Redirect n) else .ok (.Normal n)
  else .error "invalid status code"

/-- `ast::ErrorPageResponse`: the `response_code` field of an `ErrorPage`.
Modelled from the spec: "response_code: one of Keep, Redirect(code),
Replace(code), Target". -/
inductive ErrorPageResponse where
  | Keep
  | Redirect (code : Nat)
  | Replace (code : Nat)
  | Target
deriving DecidableEq

/-- `ast::ErrorPage`.  Modelled from the spec: "ErrorPage (codes: ordered
list of numeric status codes, response_code, uri: Value)". -/
structure ErrorPage where
  codes : List Nat
  response_code : ErrorPageResponse
  uri : Value
deriving DecidableEq

/-- The local `lit` helper of `error_page()` (`src/core.rs`, lines 21-37):
a value used as a status code must consist of exactly one literal part. -/
def lit (v : Value) : Except String (List Char) :=
  match v.data with
  | [] => .error "empty error codes are not supported"
  | [Item.Literal x] => .ok x
  | [Item.Variable _] => .error "only last argument of error_codes can contain variables"
  | _ :: _ :: _ => .error "only last argument of error_codes can contain variables"

/-- Rust `str::starts_with('=')`: does the text begin with `=`? -/
def startsWithEq (t : List Char) : Bool :=
  match t with
  | c :: _ => c = '='
  | [] => false

/-- The local `is_eq` closure (`src/core.rs`, lines 39-41):
`lit(val)?.starts_with('=')`. -/
def isEq (v : Value) : Except String Bool :=
  (lit v).map startsWithEq

/-- The match on `Code::parse`'s result (`src/core.rs`, lines 58-61):
redirect codes become `Redirect`, normal codes become `Replace`. -/
def codeToResponse : Code → ErrorPageResponse
  | .Redirect c => .Redirect c
  | .Normal c => .Replace c

/-- The status-code loop of `error_page()` (`src/core.rs`, lines 66-69):
`codes.push(Code::parse(lit(&code)?)?.as_code())` for each remaining
argument, left to right, stopping at the first error. -/
def codesOf (cp : CodeParser) (l : List Value) : Except String (List Nat) :=
  l.mapM fun c => (lit c).bind fun t => (cp t).map Code.as_code

/-- The argument-processing closure of `error_page()` (`src/core.rs`,
lines 45-76), as a function of the already-scanned argument values:
reject an empty list, pop the uri, test the new last argument with
`is_eq` (propagating its error), pop and classify it when it starts with
`=`, then classify the remaining arguments as status codes. -/
def errorPage (cp : CodeParser) (v : List Value) : Except String ErrorPage :=
  match v.getLast? with
  | none => .error "error_page directive must not be empty"
  | some uri =>
    match v.dropLast.getLast? with
    | none => (codesOf cp v.dropLast).map fun codes => ⟨codes, .Target, uri⟩
    | some lastArg =>
      (isEq lastArg).bind fun b =>
        if b then
          (lit lastArg).bind fun dest =>
            ((if dest = ['='] then .ok .Keep
              else (cp (dest.drop 1)).map codeToResponse) :
                Except String ErrorPageResponse).bind fun rc =>
              (codesOf cp v.dropLast.dropLast).map fun codes => ⟨codes, rc, uri⟩
        else (codesOf cp v.dropLast).map fun codes => ⟨codes, .Target, uri⟩

/-! ## `listen` directive rule (`src/core.rs`, lines 80-157) -/

/-- `ast::HttpExt`.  Modelled from the spec's option list
(`http2`, `spdy`). -/
inductive HttpExt where
  | Http2
  | Spdy
deriving DecidableEq

/-- `ast::Address`.  Modelled from the spec: "one of Unix(path),
StarPort(port), Port(number), Ip(address), chosen by syntactic prefix".
Ports and numbers are modelled as `Nat`, paths and IP addresses as their
text. -/
inductive Address where
  | Unix (path : List Char)
  | StarPort (port : Nat)
  | Port (port : Nat)
  | Ip (addr : List Char)
deriving DecidableEq

/-- All-digit decimal parse, shared by the modelled Rust `str::parse`
calls.  Modelled from the spec: the external standard-library integer
parsing (`"each numeric-valued option fails with a parse error if its
value does not parse as the expected integer type"`). -/
def parseDigits (s : List Char) : Except String Nat :=
  if s ≠ [] ∧ s.all Char.isDigit then
    .ok (s.foldl (fun n c => n * 10 + (c.toNat - 48)) 0)
  else .error "invalid digit found in string"

/-- Modelled from the spec: Rust's unsigned integer parse with an
exclusive upper bound (an optional leading `+` is accepted). -/
def parseUnsigned (bound : Nat) (s : List Char) : Except String Nat :=
  (parseDigits (match s with | '+' :: r => r | _ => s)).bind fun n =>
    if n < bound then .ok n else .error "number too large to fit in target type"

/-- Modelled from the spec: Rust's signed 32-bit integer parse. -/
def parseI32 (s : List Char) : Except String Int :=
  match s with
  | '-' :: r =>
    (parseDigits r).bind fun n =>
      if n ≤ 2 ^ 31 then .ok (-(n : Int))
      else .error "number too small to fit in target type"
  | _ => (parseUnsigned (2 ^ 31) s).map fun n => (n : Int)

/-- The address parser of `listen()` (`src/core.rs`, lines 103-113).  The
external IP-address parse (the `or_else` fallback) is a parameter.  Note
the source's `&s.value[6..]`: the checked prefix `unix:` is five bytes but
six bytes are dropped; on the token `unix:` alone the slice would panic,
modelled as an error. -/
def parseAddress (ipParse : List Char → Except String (List Char))
    (s : List Char) : Except String Address :=
  if "unix:".data.isPrefixOf s then
    if s.length < 6 then .error "byte index out of bounds"
    else .ok (.Unix (s.drop 6))
  else if "*:".data.isPrefixOf s then
    (parseUnsigned (2 ^ 16) (s.drop 2)).map .StarPort
  else
    match parseUnsigned (2 ^ 16) s with
    | .ok n => .ok (.Port n)
    | .error _ => (ipParse s).map .Ip

/-- `ListenParts` from `src/core.rs` (lines 80-94): the tagged
intermediate representation of one recognized `listen` option. -/
inductive ListenParts where
  | DefaultServer
  | Ssl
  | Ext (ext : HttpExt)
  | ProxyProtocol
  | SetFib (v : Int)
  | FastOpen (v : Nat)
  | Backlog (v : Int)
  | RcvBuf (v : Nat)
  | SndBuf (v : Nat)
  | Deferred
  | Bind
  | Ipv6Only (v : Bool)
  | ReusePort
deriving DecidableEq

/-- `ast::Listen`.  Modelled from the spec's field list in §3. -/
structure Listen where
  address : Address
  default_server : Bool
  ssl : Bool
  ext : Option HttpExt
  proxy_protocol : Bool
  setfib : Option Int
  fastopen : Option Nat
  backlog : Option Int
  rcvbuf : Option Nat
  sndbuf : Option Nat
  deferred : Bool
  bind : Bool
  ipv6only : Option Bool
  reuseport : Bool
deriving DecidableEq

/-- `Listen::new(addr)`.  Modelled from the spec: all flags false, all
options absent ("other fields default"). -/
def Listen.new (addr : Address) : Listen :=
  ⟨addr, false, false, none, false, none, none, none, none, none,
   false, false, none, false⟩

/-- One arm of the option-folding `match` of `listen()` (`src/core.rs`,
lines 137-151): assign the corresponding field. -/
def listenStep (lst : Listen) (item : ListenParts) : Listen :=
  match item with
  | .DefaultServer => { lst with default_server := true }
  | .Ssl => { lst with ssl := true }
  | .Ext e => { lst with ext := some e }
  | .ProxyProtocol => { lst with proxy_protocol := true }
  | .SetFib v => { lst with setfib := some v }
  | .FastOpen v => { lst with fastopen := some v }
  | .Backlog v => { lst with backlog := some v }
  | .RcvBuf v => { lst with rcvbuf := some v }
  | .SndBuf v => { lst with sndbuf := some v }
  | .Deferred => { lst with deferred := true }
  | .Bind => { lst with bind := true }
  | .Ipv6Only v => { lst with ipv6only := some v }
  | .ReusePort => { lst with reuseport := true }

/-- The option loop of `listen()` (`src/core.rs`, lines 134-153): fold the
recognized options into the record, in order. -/
def listenFold (lst : Listen) (items : List ListenParts) : Listen :=
  items.foldl listenStep lst

/-- One alternative of the option `choice` of `listen()` (`src/core.rs`,
lines 114-133), applied to a single option token: the `ident(..)` helpers
match the whole token, the `prefix(..)` helpers match a leading keyword
and hand the remainder to the arm (both helpers are external to `src/`,
modelled from the spec's grammar in §6).  Alternatives are tried in source
order. -/
def parseListenOpt (tok : List Char) : Except String ListenParts :=
  if tok = "default_server".data then .ok .DefaultServer
  else if tok = "ssl".data then .ok .Ssl
  else if tok = "http2".data then .ok (.Ext .Http2)
  else if tok = "spdy".data then .ok (.Ext .Spdy)
  else if tok = "proxy_protocol".data then .ok .ProxyProtocol
  else if "setfib=".data.isPrefixOf tok then (parseI32 (tok.drop 7)).map .SetFib
  else if "fastopen=".data.isPrefixOf tok then
    (parseUnsigned (2 ^ 32) (tok.drop 9)).map .FastOpen
  else if "backlog=".data.isPrefixOf tok then (parseI32 (tok.drop 8)).map .Backlog
  else if "rcvbuf=".data.isPrefixOf tok then
    (parseUnsigned (2 ^ 64) (tok.drop 7)).map .RcvBuf
  else if "sndbuf=".data.isPrefixOf tok then
    (parseUnsigned (2 ^ 64) (tok.drop 7)).map .SndBuf
  else if tok = "deferred".data then .ok .Deferred
  else if tok = "bind".data then .ok .Bind
  else if "ipv6only=".data.isPrefixOf tok then
    (if tok.drop 9 = "on".data then .ok (.Ipv6Only true)
     else if tok.drop 9 = "off".data then .ok (.Ipv6Only false)
     else .error "only on/off supported")
  else if tok = "reuseport".data then .ok .ReusePort
  else .error "unrecognized listen option"

/-- The whole `listen` rule (`src/core.rs`, lines 96-157) at the level of
the already-split token texts: one address token, then the option tokens
consumed by `many(choice(..))`, folded into the record. -/
def listenDirective (ipParse : List Char → Except String (List Char))
    (addrTok : List Char) (optToks : List (List Char)) : Except String Listen :=
  (parseAddress ipParse addrTok).bind fun addr =>
    (optToks.mapM parseListenOpt).map fun opts =>
      listenFold (Listen.new addr) opts

/-! ## Statement helpers

Definitions used only to *state* the claims, written from the claims'
wording; they are not part of the source embedding above and each theorem
relates them to the embedded functions. -/

/-- Statement helper: the text a part corresponds to — a literal is its
text, a variable reference is `$name`. -/
def renderPart : Item → List Char
  | .Literal t => t
  | .Variable n => '$' :: n

/-- Statement helper: the text a part list corresponds to, in order. -/
def renderedL (items : List Item) : List Char :=
  (items.map renderPart).flatten

/-- Statement helper: does `m` qualify as a response-code override marker
— a value of exactly one literal part whose text begins with `=`? -/
def isMarkerVal (m : Value) : Bool :=
  match m.data with
  | [Item.Literal t] => startsWithEq t
  | _ => false

/-- Statement helper: the response code the claim assigns to a marker with
literal text `t`: `Keep` when `t` is exactly `=`, otherwise the
classifier's verdict on the text after the leading `=` (redirect class
becomes `Redirect`, normal class becomes `Replace`). -/
def markerResponse (cp : CodeParser) (t : List Char) (rc : ErrorPageResponse) : Prop :=
  (t = ['='] ∧ rc = .Keep) ∨
  (t ≠ ['='] ∧ ∃ c, cp (t.drop 1) = .ok c ∧ rc = codeToResponse c)

/-- Statement helper: the `error_page` arguments other than the uri and
the (possibly popped) response-code marker — the ones the claim says are
status codes. -/
def specCodeArgs (v : List Value) : List Value :=
  match v.getLast? with
  | none => []
  | some _ =>
    match v.dropLast.getLast? with
    | none => v.dropLast
    | some m => if isMarkerVal m then v.dropLast.dropLast else v.dropLast

/-- Statement helper: all parts of the value are literals. -/
def allLiteralParts (v : Value) : Bool :=
  v.data.all fun i =>
    match i with
    | .Literal _ => true
    | .Variable _ => false

/-- Statement helper: no literal part of the value contains a `$`. -/
def literalsNoDollar (v : Value) : Bool :=
  v.data.all fun i =>
    match i with
    | .Literal t => t.all fun c => ¬ c = '$'
    | .Variable _ => true

/-- Statement helper: the text does not begin with a quote character. -/
def headNotQuote (l : List Char) : Bool :=
  match l with
  | [] => true
  | c :: _ => ¬ c = '"' ∧ ¬ c = squote

/-- Statement helper (C7): the payload of a `setfib=` option. -/
def setfibOf : ListenParts → Option Int
  | .SetFib v => some v
  | _ => none

/-- Statement helper (C7): the payload of an `http2`/`spdy` option. -/
def extOf : ListenParts → Option HttpExt
  | .Ext e => some e
  | _ => none

/-- Statement helper (C7): the payload of a `fastopen=` option. -/
def fastopenOf : ListenParts → Option Nat
  | .FastOpen v => some v
  | _ => none

/-- Statement helper (C7): the payload of a `backlog=` option. -/
def backlogOf : ListenParts → Option Int
  | .Backlog v => some v
  | _ => none

/-- Statement helper (C7): the payload of a `rcvbuf=` option. -/
def rcvbufOf : ListenParts → Option Nat
  | .RcvBuf v => some v
  | _ => none

/-- Statement helper (C7): the payload of a `sndbuf=` option. -/
def sndbufOf : ListenParts → Option Nat
  | .SndBuf v => some v
  | _ => none

/-- Statement helper (C7): the payload of an `ipv6only=` option. -/
def ipv6onlyOf : ListenParts → Option Bool
  | .Ipv6Only v => some v
  | _ => none

/-- Statement helper (C7): is this the `default_server` flag? -/
def isDefaultServer : ListenParts → Bool
  | .DefaultServer => true
  | _ => false

/-- Statement helper (C7): is this the `ssl` flag? -/
def isSsl : ListenParts → Bool
  | .Ssl => true
  | _ => false

/-- Statement helper (C7): is this the `proxy_protocol` flag? -/
def isProxyProtocol : ListenParts → Bool
  | .ProxyProtocol => true
  | _ => false

/-- Statement helper (C7): is this the `deferred` flag? -/
def isDeferred : ListenParts → Bool
  | .Deferred => true
  | _ => false

/-- Statement helper (C7): is this the `bind` flag? -/
def isBind : ListenParts → Bool
  | .Bind => true
  | _ => false

/-- Statement helper (C7): is this the `reuseport` flag? -/
def isReusePort : ListenParts → Bool
  | .ReusePort => true
  | _ => false

/-- Fold a list of updates into an optional field, each overwriting the
previous content: the recursive form of "last write wins". -/
def lastWins {α : Type} (old : Option α) : List α → Option α
  | [] => old
  | x :: l => lastWins (some x) l

/-! ## Helper lemmas -/

theorem exceptMap_ok {α β : Type} {f : α → β} {e : Except String α} {r : β} :
    e.map f = .ok r ↔ ∃ a, e = .ok a ∧ f a = r := by
  cases e <;> simp [Except.map]

theorem exceptBind_ok {α β : Type} {f : α → Except String β} {e : Except String α}
    {r : β} : e.bind f = .ok r ↔ ∃ a, e = .ok a ∧ f a = .ok r := by
  cases e <;> simp [Except.bind]

theorem mem_of_getLast?_eq {α : Type} : ∀ {l : List α} {a : α},
    l.getLast? = some a → a ∈ l
  | [], _, h => by simp at h
  | [x], a, h => by simp_all
  | x :: y :: l, a, h => by
    rw [List.getLast?_cons_cons] at h
    exact List.mem_cons_of_mem x (mem_of_getLast?_eq h)

theorem length_dropWhile_le' {α : Type} (p : α → Bool) (l : List α) :
    (l.dropWhile p).length ≤ l.length := by
  induction l with
  | nil => simp
  | cons x xs ih =>
    rw [List.dropWhile_cons]
    by_cases h : p x = true
    · simp only [h, if_true]
      exact Nat.le_succ_of_le ih
    · simp [h]

theorem renderedL_append (a b : List Item) :
    renderedL (a ++ b) = renderedL a ++ renderedL b := by
  simp [renderedL]

theorem renderedL_flushLit (l : List Char) : renderedL (flushLit l) = l := by
  by_cases h : l = [] <;> simp [flushLit, renderedL, renderPart, h]

theorem flushLit_ne_empty {l : List Char} {t : List Char}
    (h : Item.Literal t ∈ flushLit l) : t ≠ [] := by
  by_cases hl : l = [] <;> simp [flushLit, hl] at h
  rcases h with rfl
  exact hl

theorem foldl_writeItem (items : List Item) :
    ∀ init : List Char, items.foldl writeItem init = init ++ renderedL items := by
  induction items with
  | nil => intro init; simp [renderedL]
  | cons i rest ih =>
    intro init
    rw [List.foldl_cons, ih]
    cases i <;> simp [writeItem, renderedL, renderPart]

theorem hasSpecials_iff (v : Value) :
    hasSpecials v = true ↔
      ∃ t, Item.Literal t ∈ v.data ∧ ∃ c ∈ t, isSpecial c = true := by
  simp only [hasSpecials, List.any_eq_true]
  constructor
  · rintro ⟨i, hi, hmatch⟩
    cases i with
    | Literal t =>
      rw [List.any_eq_true] at hmatch
      exact ⟨t, hi, hmatch⟩
    | Variable n => simp at hmatch
  · rintro ⟨t, ht, c, hc, hs⟩
    exact ⟨Item.Literal t, ht, List.any_eq_true.mpr ⟨c, hc, hs⟩⟩

theorem scanRawAux_no_dollar : ∀ (fuel : Nat) (rest : List Char) (prev : Char)
    (acc : List Char) (buf : List Item), rest.length < fuel →
    (∀ c ∈ rest, ¬ c = '$') →
    scanRawAux fuel rest prev acc buf = .ok (buf ++ flushLit (acc ++ rest)) := by
  intro fuel
  induction fuel with
  | zero => intro rest _ _ _ h _; exact absurd h (Nat.not_lt_zero _)
  | succ fuel ih =>
    intro rest prev acc buf hlen hnd
    match rest with
    | [] => simp [scanRawAux]
    | c :: rs =>
      have hc : ¬ c = '$' := hnd c (by simp)
      have hrs : ∀ x ∈ rs, ¬ x = '$' := fun x hx => hnd x (List.mem_cons_of_mem c hx)
      have hlen' : rs.length < fuel := by simp at hlen; omega
      by_cases hp : prev = '\\'
      · rw [scanRawAux.eq_def]
        simp only [hp, if_true, if_pos rfl]
        rw [ih rs ' ' (acc ++ [c]) buf hlen' hrs]
        simp
      · rw [scanRawAux.eq_def]
        simp only [hp, if_false, hc, ite_false, if_neg]
        rw [ih rs c (acc ++ [c]) buf hlen' hrs]
        simp

theorem scanRawAux_ok : ∀ (fuel : Nat) (rest : List Char) (prev : Char)
    (acc : List Char) (buf items : List Item), rest.length < fuel →
    scanRawAux fuel rest prev acc buf = .ok items →
    ∃ tail, items = buf ++ tail ∧ renderedL tail = acc ++ rest ∧
      ∀ t, Item.Literal t ∈ tail → t ≠ [] := by
  intro fuel
  induction fuel with
  | zero => intro rest _ _ _ _ h; exact absurd h (Nat.not_lt_zero _)
  | succ fuel ih =>
    intro rest prev acc buf items hlen hok
    match rest with
    | [] =>
      rw [scanRawAux.eq_def] at hok
      simp only [Except.ok.injEq] at hok
      refine ⟨flushLit acc, hok.symm, ?_, fun t ht => flushLit_ne_empty ht⟩
      simp [renderedL_flushLit]
    | c :: rs =>
      have hlen' : rs.length < fuel := by simp at hlen; omega
      rw [scanRawAux.eq_def] at hok
      by_cases hp : prev = '\\'
      · simp only [hp, if_pos rfl, if_true] at hok
        obtain ⟨tail, h1, h2, h3⟩ := ih rs ' ' (acc ++ [c]) buf items hlen' hok
        exact ⟨tail, h1, by rw [h2]; simp, h3⟩
      · by_cases hd : c = '$'
        · subst hd
          cases rs with
          | nil => simp [hp] at hok
          | cons f rs₂ =>
            simp only [hp, if_false, if_pos rfl, if_neg, ite_false] at hok
            by_cases hf : f = '{'
            · simp [hf] at hok
            · by_cases hv : isVarStart f = true
              · simp only [hf, hv, if_false, if_true, ite_false, if_neg, if_pos] at hok
                have hlen'' : (rs₂.dropWhile isVarChar).length < fuel := by
                  have := length_dropWhile_le' isVarChar rs₂
                  simp at hlen
                  omega
                obtain ⟨tail', h1, h2, h3⟩ :=
                  ih _ '$' [] _ items hlen'' hok
                simp only [List.nil_append] at h2
                refine ⟨flushLit acc ++
                  [Item.Variable (f :: rs₂.takeWhile isVarChar)] ++ tail', ?_, ?_, ?_⟩
                · rw [h1]; simp
                · rw [renderedL_append, renderedL_append, renderedL_flushLit, h2]
                  simp [renderedL, renderPart, List.takeWhile_append_dropWhile]
                · intro t ht
                  simp at ht
                  rcases ht with h | h
                  · exact flushLit_ne_empty h
                  · exact h3 t h
              · simp [hf, hv] at hok
        · simp only [hp, hd, if_false, ite_false, if_neg] at hok
          obtain ⟨tail, h1, h2, h3⟩ := ih rs c (acc ++ [c]) buf items hlen' hok
          exact ⟨tail, h1, by rw [h2]; simp, h3⟩

theorem scanQuotedAux_backslash (q : Char) : ∀ (fuel : Nat)
    (rest curSlice : List Char) (buf : List Item), rest.length < fuel →
    scanQuotedAux q fuel rest '\\' curSlice buf = .error "unclosed quote" := by
  intro fuel
  induction fuel with
  | zero => intro rest _ _ h; exact absurd h (Nat.not_lt_zero _)
  | succ fuel ih =>
    intro rest curSlice buf hlen
    match rest with
    | [] => rw [scanQuotedAux.eq_def]
    | c :: rs =>
      rw [scanQuotedAux.eq_def]
      simp only [if_pos rfl, if_true]
      exact ih rs (curSlice ++ [c]) buf (by simp at hlen; omega)

theorem scanQuotedAux_ok (q : Char) : ∀ (fuel : Nat) (rest : List Char)
    (prev : Char) (curSlice : List Char) (buf items : List Item),
    rest.length < fuel → ¬ prev = '\\' →
    scanQuotedAux q fuel rest prev curSlice buf = .ok items →
    ∃ tail, items = buf ++ tail ∧ renderedL tail ++ [q] = curSlice ++ rest ∧
      ∀ t, Item.Literal t ∈ tail → t ≠ [] := by
  intro fuel
  induction fuel with
  | zero => intro rest _ _ _ _ h; exact absurd h (Nat.not_lt_zero _)
  | succ fuel ih =>
    intro rest prev curSlice buf items hlen hprev hok
    match rest with
    | [] => simp [scanQuotedAux.eq_def] at hok
    | c :: rs =>
      have hlen' : rs.length < fuel := by simp at hlen; omega
      rw [scanQuotedAux.eq_def] at hok
      simp only [if_neg hprev] at hok
      by_cases hcq : (c = '"' ∨ c = squote) ∧ c = q
      · simp only [if_pos hcq] at hok
        by_cases hrs : rs = []
        · subst hrs
          simp only [if_pos rfl, Except.ok.injEq, if_true] at hok
          refine ⟨flushLit curSlice, hok.symm, ?_, fun t ht => flushLit_ne_empty ht⟩
          rw [renderedL_flushLit, hcq.2]
        · simp [hrs] at hok
      · simp only [if_neg hcq] at hok
        by_cases hd : c = '$'
        · subst hd
          cases rs with
          | nil => simp at hok
          | cons f rs₂ =>
            simp only [if_pos rfl, if_true, if_neg, ite_false] at hok
            by_cases hf : f = '{'
            · simp [hf] at hok
            · by_cases hv : isVarStart f = true
              · simp only [hf, hv, if_false, if_true, ite_false, if_neg, if_pos] at hok
                cases hdw : rs₂.dropWhile isVarChar with
                | nil => rw [hdw] at hok; simp at hok
                | cons d ds =>
                  rw [hdw] at hok
                  simp only [] at hok
                  have hlen'' : (d :: ds).length < fuel := by
                    have := length_dropWhile_le' isVarChar rs₂
                    rw [hdw] at this
                    simp at hlen this ⊢
                    omega
                  obtain ⟨tail', h1, h2, h3⟩ :=
                    ih _ '$' [] _ items hlen'' (by decide) hok
                  simp only [List.nil_append] at h2
                  have h2' : renderedL tail' ++ [q] = rs₂.dropWhile isVarChar := by
                    rw [hdw]; exact h2
                  refine ⟨flushLit curSlice ++
                    [Item.Variable (f :: rs₂.takeWhile isVarChar)] ++ tail', ?_, ?_, ?_⟩
                  · rw [h1]; simp
                  · rw [renderedL_append, renderedL_append, renderedL_flushLit]
                    have hr : renderedL [Item.Variable (f :: rs₂.takeWhile isVarChar)] =
                        '$' :: f :: rs₂.takeWhile isVarChar := by
                      simp [renderedL, renderPart]
                    rw [hr, List.append_assoc, List.append_assoc, h2']
                    simp [List.takeWhile_append_dropWhile]
                  · intro t ht
                    simp at ht
                    rcases ht with h | h
                    · exact flushLit_ne_empty h
                    · exact h3 t h
              · simp [hf, hv] at hok
        · simp only [if_neg hd] at hok
          by_cases hb : c = '\\'
          · subst hb
            rw [scanQuotedAux_backslash q fuel rs (curSlice ++ ['\\']) buf hlen'] at hok
            cases hok
          · obtain ⟨tail, h1, h2, h3⟩ := ih rs c (curSlice ++ [c]) buf items hlen' hb hok
            refine ⟨tail, h1, ?_, h3⟩
            rw [h2]
            simp

theorem displayValue_of_not_specials {v : Value} (h : hasSpecials v = false) :
    displayValue v = renderedL v.data := by
  simp [displayValue, h, foldl_writeItem]

theorem mem_renderedL_literal {v : Value} (hall : allLiteralParts v = true)
    {c : Char} (hc : c ∈ renderedL v.data) :
    ∃ t, Item.Literal t ∈ v.data ∧ c ∈ t := by
  simp only [renderedL, List.mem_flatten, List.mem_map] at hc
  obtain ⟨piece, ⟨i, hi, hpi⟩, hcp⟩ := hc
  cases i with
  | Literal t => exact ⟨t, hi, by rw [← hpi] at hcp; exact hcp⟩
  | Variable n =>
    rw [allLiteralParts, List.all_eq_true] at hall
    have := hall _ hi
    simp at this

/-! ## Claim theorems -/

/-- Claim C9: for every input the Value Scanner accepts (raw or quoted
mode), the resulting `Value` has no zero-length `Literal` part, and the
parts correspond, in order, to the left-to-right text of the input: the
concatenation of the parts' texts (a literal is its text, a variable
reference is `$name`) reproduces the input exactly — the whole input in
raw mode, the text between the enclosing quotes in quoted mode. -/
theorem scanner_parts_sound (s : List Char) (v : Value)
    (h : valueParse s = .ok v) :
    (∀ t, Item.Literal t ∈ v.data → t ≠ []) ∧
    (renderedL v.data = s ∨
      ∃ q, (q = '"' ∨ q = squote) ∧ s = q :: (renderedL v.data ++ [q])) := by
  rw [valueParse.eq_def, exceptMap_ok] at h
  obtain ⟨items, hscan, hv⟩ := h
  cases s with
  | nil =>
    simp only [] at hscan
    have : items = [] := by
      rw [scanRaw] at hscan
      simpa [scanRawAux, flushLit] using hscan.symm
    subst this
    rw [← hv]
    exact ⟨by simp, Or.inl (by simp [renderedL])⟩
  | cons c s' =>
    replace hscan : (if c = '"' then scanQuoted '"' (c :: s')
        else if c = squote then scanQuoted squote (c :: s')
        else scanRaw (c :: s')) = Except.ok items := hscan
    by_cases hc : c = '"'
    · rw [if_pos hc, scanQuoted] at hscan
      obtain ⟨tail, h1, h2, h3⟩ :=
        scanQuotedAux_ok '"' _ _ _ _ _ _
          (by simp only [List.drop_succ_cons, List.drop_zero, List.length_cons]; omega)
          (by decide) hscan
      simp only [List.nil_append] at h1 h2
      subst h1
      rw [← hv]
      refine ⟨h3, Or.inr ⟨'"', Or.inl rfl, ?_⟩⟩
      simp only [List.drop_succ_cons, List.drop_zero] at h2
      rw [hc, h2]
    · by_cases hq : c = squote
      · rw [if_neg hc, if_pos hq, scanQuoted] at hscan
        obtain ⟨tail, h1, h2, h3⟩ :=
          scanQuotedAux_ok squote _ _ _ _ _ _
            (by simp only [List.drop_succ_cons, List.drop_zero, List.length_cons]; omega)
            (by decide) hscan
        simp only [List.nil_append] at h1 h2
        subst h1
        rw [← hv]
        refine ⟨h3, Or.inr ⟨squote, Or.inr rfl, ?_⟩⟩
        simp only [List.drop_succ_cons, List.drop_zero] at h2
        rw [hq, h2]
      · rw [if_neg hc, if_neg hq, scanRaw] at hscan
        obtain ⟨tail, h1, h2, h3⟩ :=
          scanRawAux_ok _ _ _ _ _ _ (by simp) hscan
        simp only [List.nil_append] at h1 h2
        subst h1
        rw [← hv]
        exact ⟨h3, Or.inl h2⟩

/-- Witness for C9 at the concrete raw token `a$x`. -/
theorem scanner_parts_sound_witness :
    (∀ t, Item.Literal t ∈ (Value.mk [Item.Literal ['a'], Item.Variable ['x']]).data →
        t ≠ []) ∧
    (renderedL (Value.mk [Item.Literal ['a'], Item.Variable ['x']]).data = "a$x".data ∨
      ∃ q, (q = '"' ∨ q = squote) ∧
        "a$x".data =
          q :: (renderedL (Value.mk [Item.Literal ['a'], Item.Variable ['x']]).data ++ [q])) :=
  scanner_parts_sound "a$x".data ⟨[Item.Literal ['a'], Item.Variable ['x']]⟩ (by decide)

/-- Claim C5 (amended: the input must be non-empty — the empty string
yields zero parts): every non-empty raw input without `$`, quote
characters or backslash scans to exactly one `Literal` equal to the
input. -/
theorem raw_plain_single_literal (s : List Char) (hne : s ≠ [])
    (h : ∀ c ∈ s, ¬ c = '$' ∧ ¬ c = '"' ∧ ¬ c = squote ∧ ¬ c = '\\') :
    valueParse s = .ok ⟨[Item.Literal s]⟩ := by
  cases s with
  | nil => exact absurd rfl hne
  | cons c s' =>
    have hc := h c (by simp)
    rw [valueParse.eq_def]
    simp only [if_neg hc.2.1, if_neg hc.2.2.1]
    rw [scanRaw, scanRawAux_no_dollar _ _ _ _ _ (by simp) (fun x hx => (h x hx).1)]
    simp [flushLit, Except.map]

/-- Counterexample to C5 as stated: the empty string satisfies every
stated condition but scans to zero parts, not to one `Literal` part equal
to the input. -/
theorem raw_plain_single_literal_counterexample :
    valueParse [] = .ok ⟨[]⟩ ∧ ¬ valueParse [] = .ok ⟨[Item.Literal []]⟩ := by
  exact ⟨by decide, by decide⟩

/-- Witness for C5 at the concrete raw token `abc`. -/
theorem raw_plain_single_literal_witness :
    valueParse "abc".data = .ok ⟨[Item.Literal "abc".data]⟩ :=
  raw_plain_single_literal "abc".data (by decide) (by decide)

/-- Claim C4 (amended: additionally the literal text must contain no `$`
and the serialized text must not begin with a quote character — otherwise
re-scanning can fail): for all-literal values without special characters,
serialize-parse-serialize equals serialize. -/
theorem serialize_roundtrip (v : Value)
    (hlit : allLiteralParts v = true)
    (hspec : hasSpecials v = false)
    (hdollar : literalsNoDollar v = true)
    (hquote : headNotQuote (displayValue v) = true) :
    (valueParse (displayValue v)).map displayValue = .ok (displayValue v) := by
  have hdisp : displayValue v = renderedL v.data := displayValue_of_not_specials hspec
  have hd' : ∀ t, Item.Literal t ∈ v.data → ∀ c ∈ t, ¬ c = '$' := by
    intro t ht c hc
    rw [literalsNoDollar, List.all_eq_true] at hdollar
    have := hdollar _ ht
    simp only [List.all_eq_true] at this
    simpa using this c hc
  have hs' : ∀ t, Item.Literal t ∈ v.data → ∀ c ∈ t, isSpecial c = false := by
    intro t ht c hc
    by_contra hcon
    have : hasSpecials v = true :=
      (hasSpecials_iff v).mpr ⟨t, ht, c, hc, by simpa using hcon⟩
    rw [hspec] at this
    cases this
  have hchars : ∀ c ∈ displayValue v, ¬ c = '$' ∧ isSpecial c = false := by
    intro c hc
    rw [hdisp] at hc
    obtain ⟨t, ht, hct⟩ := mem_renderedL_literal hlit hc
    exact ⟨hd' t ht c hct, hs' t ht c hct⟩
  cases hD : displayValue v with
  | nil => decide
  | cons c rest =>
    have hhq : ¬ c = '"' ∧ ¬ c = squote := by
      have := hquote
      rw [hD] at this
      simpa [headNotQuote] using this
    have hnd : ∀ x ∈ (c :: rest), ¬ x = '$' := fun x hx => (hchars x (hD ▸ hx)).1
    rw [valueParse.eq_def]
    simp only [if_neg hhq.1, if_neg hhq.2]
    rw [scanRaw, scanRawAux_no_dollar _ _ _ _ _ (by simp) hnd]
    have hflush : flushLit (c :: rest) = [Item.Literal (c :: rest)] := by
      simp [flushLit]
    have hnospec : hasSpecials ⟨flushLit (c :: rest)⟩ = false := by
      rw [hflush]
      cases hh : hasSpecials ⟨[Item.Literal (c :: rest)]⟩ with
      | false => rfl
      | true =>
        obtain ⟨t, htmem, c', hc', hsp⟩ := (hasSpecials_iff _).mp hh
        simp only [List.mem_singleton, Item.Literal.injEq] at htmem
        have := (hchars c' (by rw [hD]; rw [← htmem]; exact hc')).2
        rw [this] at hsp
        cases hsp
    simp only [List.nil_append, Except.map, Except.ok.injEq]
    rw [displayValue_of_not_specials hnospec, hflush]
    simp [renderedL, renderPart]

/-- Counterexample to C4 as stated: `Literal "$"` and `Literal "\""` are
all-literal values without special characters, yet re-scanning their
serialization fails (bare `$`; unclosed quote), so the round trip does not
hold as claimed. -/
theorem serialize_roundtrip_counterexample :
    (allLiteralParts ⟨[Item.Literal ['$']]⟩ = true ∧
     hasSpecials ⟨[Item.Literal ['$']]⟩ = false ∧
     ¬ (valueParse (displayValue ⟨[Item.Literal ['$']]⟩)).map displayValue
        = .ok (displayValue ⟨[Item.Literal ['$']]⟩)) ∧
    (allLiteralParts ⟨[Item.Literal ['"']]⟩ = true ∧
     hasSpecials ⟨[Item.Literal ['"']]⟩ = false ∧
     ¬ (valueParse (displayValue ⟨[Item.Literal ['"']]⟩)).map displayValue
        = .ok (displayValue ⟨[Item.Literal ['"']]⟩)) := by
  exact ⟨⟨by decide, by decide, by decide⟩, ⟨by decide, by decide, by decide⟩⟩

/-- Witness for C4 at the concrete value `[Literal "ab", Literal "cd"]`. -/
theorem serialize_roundtrip_witness :
    (valueParse (displayValue ⟨[Item.Literal "ab".data, Item.Literal "cd".data]⟩)).map
        displayValue
      = .ok (displayValue ⟨[Item.Literal "ab".data, Item.Literal "cd".data]⟩) :=
  serialize_roundtrip ⟨[Item.Literal "ab".data, Item.Literal "cd".data]⟩
    (by decide) (by decide) (by decide) (by decide)

/-- Claim C6: the serializer wraps the output in double quotes exactly
when some `Literal` part contains a special character (space, semicolon,
CR, LF, tab) — characters inside `Variable` parts never trigger quoting —
and in both cases the body is the parts rendered in order with every
`Variable` part rendered as `$name` (see `renderPart`). -/
theorem display_quoting (v : Value) :
    (displayValue v = '"' :: renderedL v.data ++ ['"'] ∧
      ∃ t, Item.Literal t ∈ v.data ∧ ∃ c ∈ t, isSpecial c = true) ∨
    (displayValue v = renderedL v.data ∧
      ¬ ∃ t, Item.Literal t ∈ v.data ∧ ∃ c ∈ t, isSpecial c = true) := by
  cases hs : hasSpecials v with
  | true =>
    left
    refine ⟨?_, (hasSpecials_iff v).mp hs⟩
    simp [displayValue, hs, foldl_writeItem]
  | false =>
    right
    refine ⟨displayValue_of_not_specials hs, fun hcon => ?_⟩
    have := (hasSpecials_iff v).mpr hcon
    rw [hs] at this
    cases this

/-- Claim C3 (code bug): in quoted mode the escape arm `continue`s past
the `prev_char` update, so after one backslash *every* later character —
including the closing quote — is consumed as escaped; scanning the quoted
token `"a\bc"` therefore fails with "unclosed quote" instead of escaping
only the single following character and recognizing the closing quote. -/
theorem quoted_backslash_swallows_rest :
    valueParse "\"a\\bc\"".data = .error "unclosed quote" := by decide

/-- Claim C1 (code bug): the address parser tests the 5-character prefix
`unix:` but slices off six characters, so `listen unix:/var/run/app.sock`
produces `Unix("var/run/app.sock")`, not the claimed
`Unix("/var/run/app.sock")`. -/
theorem listen_unix_prefix_off_by_one :
    (∀ ipParse, parseAddress ipParse "unix:/var/run/app.sock".data =
        .ok (.Unix "var/run/app.sock".data)) ∧
    "var/run/app.sock".data ≠ "/var/run/app.sock".data :=
  ⟨fun _ => rfl, by decide⟩

/-- Claim C10: an `error_page` directive with an empty argument list fails
with the "directive must not be empty" error (the full source message is
"error_page directive must not be empty") and produces no item. -/
theorem error_page_empty_directive :
    ∀ cp : CodeParser,
      errorPage cp [] = .error "error_page directive must not be empty" ∧
      ∀ r, ¬ errorPage cp [] = .ok r :=
  fun _ => ⟨rfl, fun _ h => Except.noConfusion h⟩

theorem lit_ok_shape : ∀ {a : Value} {t : List Char}, lit a = .ok t →
    a.data = [Item.Literal t]
  | ⟨[]⟩, _, h => Except.noConfusion h
  | ⟨[Item.Literal x]⟩, t, h => by
    simp only [lit, Except.ok.injEq] at h
    rw [h]
  | ⟨[Item.Variable _]⟩, _, h => Except.noConfusion h
  | ⟨Item.Literal _ :: _ :: _⟩, _, h => Except.noConfusion h
  | ⟨Item.Variable _ :: _ :: _⟩, _, h => Except.noConfusion h

theorem startsWithEq_iff (t : List Char) :
    startsWithEq t = true ↔ ∃ t', t = '=' :: t' := by
  cases t with
  | nil => simp [startsWithEq]
  | cons c t' =>
    constructor
    · intro h
      have hc : c = '=' := by simpa [startsWithEq] using h
      exact ⟨t', by rw [hc]⟩
    · rintro ⟨t'', he⟩
      injection he with h1 _
      subst h1
      simp [startsWithEq]

theorem isMarkerVal_true {m : Value} (h : isMarkerVal m = true) :
    ∃ t, m.data = [Item.Literal t] ∧ startsWithEq t = true := by
  rcases hd : m.data with _ | ⟨i, tl⟩
  · simp [isMarkerVal, hd] at h
  · rcases i with t | n
    · rcases tl with _ | ⟨j, tl'⟩
      · rw [isMarkerVal, hd] at h
        exact ⟨t, rfl, h⟩
      · simp [isMarkerVal, hd] at h
    · rcases tl with _ | _ <;> simp [isMarkerVal, hd] at h

theorem isMarkerVal_single {m : Value} {t : List Char}
    (hd : m.data = [Item.Literal t]) : isMarkerVal m = startsWithEq t := by
  rw [isMarkerVal, hd]

theorem exceptBindM_ok {α β : Type} {f : α → Except String β}
    {e : Except String α} {r : β} :
    (e >>= f) = .ok r ↔ ∃ a, e = .ok a ∧ f a = .ok r := by
  cases e <;> simp [Bind.bind, Except.bind]

theorem ebind_ok {α β : Type} (a : α) (f : α → Except String β) :
    (Except.ok a : Except String α).bind f = f a := rfl

theorem ebind_err {α β : Type} (e : String) (f : α → Except String β) :
    (Except.error e : Except String α).bind f = .error e := rfl

theorem emap_ok {α β : Type} (a : α) (f : α → β) :
    (Except.ok a : Except String α).map f = .ok (f a) := rfl

theorem emap_err {α β : Type} (e : String) (f : α → β) :
    (Except.error e : Except String α).map f = .error e := rfl

theorem ebindM_ok {α β : Type} (a : α) (f : α → Except String β) :
    ((Except.ok a : Except String α) >>= f) = f a := rfl

theorem ebindM_err {α β : Type} (e : String) (f : α → Except String β) :
    ((Except.error e : Except String α) >>= f) = .error e := rfl

theorem codesOf_ok_lit {cp : CodeParser} : ∀ {l : List Value} {cs : List Nat},
    codesOf cp l = .ok cs → ∀ a ∈ l, ∃ t, lit a = .ok t := by
  intro l
  induction l with
  | nil => intro cs _ a ha; cases ha
  | cons x xs ih =>
    intro cs h a ha
    rw [codesOf, List.mapM_cons, exceptBindM_ok] at h
    obtain ⟨c0, hx, h⟩ := h
    rw [exceptBindM_ok] at h
    obtain ⟨cs', hxs, _⟩ := h
    rcases List.mem_cons.mp ha with rfl | hmem
    · rcases exceptBind_ok.mp hx with ⟨t, ht, _⟩
      exact ⟨t, ht⟩
    · exact ih (by rw [codesOf]; exact hxs) a hmem

/-- The single case analysis both `error_page` claims rest on: every
successful parse decomposes as the claims describe. -/
theorem errorPage_ok_cases (cp : CodeParser) (v : List Value) (r : ErrorPage)
    (h : errorPage cp v = .ok r) :
    ∃ uri, v.getLast? = some uri ∧ r.uri = uri ∧
      ((v.dropLast.getLast? = none ∧ r.response_code = .Target ∧ r.codes = []) ∨
       ∃ m, v.dropLast.getLast? = some m ∧
         ((isMarkerVal m = true ∧
             (∃ t, m.data = [Item.Literal t] ∧ markerResponse cp t r.response_code) ∧
             codesOf cp v.dropLast.dropLast = .ok r.codes) ∨
          (isMarkerVal m = false ∧ r.response_code = .Target ∧
           codesOf cp v.dropLast = .ok r.codes))) := by
  rw [errorPage.eq_def] at h
  cases hu : v.getLast? with
  | none => rw [hu] at h; exact Except.noConfusion h
  | some uri =>
    rw [hu] at h
    cases hm : v.dropLast.getLast? with
    | none =>
      rw [hm, exceptMap_ok] at h
      obtain ⟨codes, hcodes, hr⟩ := h
      have hnil : v.dropLast = [] := List.getLast?_eq_none_iff.mp hm
      rw [hnil] at hcodes
      have hce : codes = [] := by
        rw [codesOf, List.mapM_nil] at hcodes
        simpa [pure, Except.pure] using hcodes.symm
      subst hce
      refine ⟨uri, rfl, ?_, Or.inl ⟨rfl, ?_, ?_⟩⟩ <;> rw [← hr]
    | some lastArg =>
      rw [hm, exceptBind_ok] at h
      obtain ⟨b, hb, h⟩ := h
      rw [isEq, exceptMap_ok] at hb
      obtain ⟨t, hlit, hbv⟩ := hb
      have hshape := lit_ok_shape hlit
      have hmk : isMarkerVal lastArg = startsWithEq t := isMarkerVal_single hshape
      cases hsw : startsWithEq t with
      | true =>
        have hb' : b = true := by rw [← hbv, hsw]
        subst hb'
        rw [if_pos rfl, exceptBind_ok] at h
        obtain ⟨dest, hdest, h⟩ := h
        have hdt : t = dest := by
          rw [hlit] at hdest
          exact (Except.ok.injEq _ _).mp hdest
        rw [← hdt] at h
        rw [exceptBind_ok] at h
        obtain ⟨rc, hrc, h⟩ := h
        rw [exceptMap_ok] at h
        obtain ⟨codes, hcodes, hr⟩ := h
        refine ⟨uri, rfl, by rw [← hr],
          Or.inr ⟨lastArg, rfl, Or.inl ⟨by rw [hmk, hsw], ⟨t, hshape, ?_⟩,
            by rw [← hr]; exact hcodes⟩⟩⟩
        rw [markerResponse, ← hr]
        by_cases he : t = ['=']
        · rw [if_pos he] at hrc
          left
          exact ⟨he, by rw [← (Except.ok.injEq _ _).mp hrc]⟩
        · rw [if_neg he, exceptMap_ok] at hrc
          obtain ⟨cc, hcc, hctr⟩ := hrc
          right
          exact ⟨he, cc, hcc, hctr.symm⟩
      | false =>
        have hb' : b = false := by rw [← hbv, hsw]
        subst hb'
        rw [if_neg (by simp), exceptMap_ok] at h
        obtain ⟨codes, hcodes, hr⟩ := h
        exact ⟨uri, rfl, by rw [← hr],
          Or.inr ⟨lastArg, rfl, Or.inr ⟨by rw [hmk, hsw], by rw [← hr],
            by rw [← hr]; exact hcodes⟩⟩⟩

/-- Claim C2: for every non-empty `error_page` argument list, the last
argument becomes the uri; if the remaining last argument is a value of
exactly one `Literal` part whose text begins with `=` (see
`isMarkerVal`), it is popped and determines `response_code` — `Keep` for
the text `=`, otherwise `Redirect`/`Replace` by the external classifier
on the text after the `=` (see `markerResponse`); with no such qualifying
argument `response_code` is `Target` and nothing further is popped (the
codes then come from all remaining arguments). -/
theorem error_page_marker_rule (cp : CodeParser) (v : List Value)
    (r : ErrorPage) (h : errorPage cp v = .ok r) :
    ∃ uri, v.getLast? = some uri ∧ r.uri = uri ∧
      ((v.dropLast.getLast? = none ∧ r.response_code = .Target ∧ r.codes = []) ∨
       ∃ m, v.dropLast.getLast? = some m ∧
         ((isMarkerVal m = true ∧
             (∃ t, m.data = [Item.Literal t] ∧ markerResponse cp t r.response_code) ∧
             codesOf cp v.dropLast.dropLast = .ok r.codes) ∨
          (isMarkerVal m = false ∧ r.response_code = .Target ∧
           codesOf cp v.dropLast = .ok r.codes))) :=
  errorPage_ok_cases cp v r h

/-- Witness for C2 at the spec's example
`error_page 500 502 503 =503 /50x.html;` (with the sample classifier). -/
theorem error_page_marker_rule_witness :
    ∃ uri,
      ([⟨[Item.Literal "500".data]⟩, ⟨[Item.Literal "502".data]⟩,
        ⟨[Item.Literal "503".data]⟩, ⟨[Item.Literal "=503".data]⟩,
        ⟨[Item.Literal "/50x.html".data]⟩] : List Value).getLast? = some uri ∧
      (⟨[500, 502, 503], .Replace 503, ⟨[Item.Literal "/50x.html".data]⟩⟩ :
          ErrorPage).uri = uri ∧
      ((([⟨[Item.Literal "500".data]⟩, ⟨[Item.Literal "502".data]⟩,
          ⟨[Item.Literal "503".data]⟩, ⟨[Item.Literal "=503".data]⟩,
          ⟨[Item.Literal "/50x.html".data]⟩] : List Value).dropLast.getLast? = none ∧
        (⟨[500, 502, 503], .Replace 503, ⟨[Item.Literal "/50x.html".data]⟩⟩ :
            ErrorPage).response_code = .Target ∧
        (⟨[500, 502, 503], .Replace 503, ⟨[Item.Literal "/50x.html".data]⟩⟩ :
            ErrorPage).codes = []) ∨
       ∃ m,
         ([⟨[Item.Literal "500".data]⟩, ⟨[Item.Literal "502".data]⟩,
           ⟨[Item.Literal "503".data]⟩, ⟨[Item.Literal "=503".data]⟩,
           ⟨[Item.Literal "/50x.html".data]⟩] : List Value).dropLast.getLast? = some m ∧
         ((isMarkerVal m = true ∧
             (∃ t, m.data = [Item.Literal t] ∧ markerResponse sampleCodeParse t
               (⟨[500, 502, 503], .Replace 503, ⟨[Item.Literal "/50x.html".data]⟩⟩ :
                   ErrorPage).response_code) ∧
             codesOf sampleCodeParse
               ([⟨[Item.Literal "500".data]⟩, ⟨[Item.Literal "502".data]⟩,
                 ⟨[Item.Literal "503".data]⟩, ⟨[Item.Literal "=503".data]⟩,
                 ⟨[Item.Literal "/50x.html".data]⟩] : List Value).dropLast.dropLast =
               .ok (⟨[500, 502, 503], .Replace 503,
                 ⟨[Item.Literal "/50x.html".data]⟩⟩ : ErrorPage).codes) ∨
          (isMarkerVal m = false ∧
           (⟨[500, 502, 503], .Replace 503, ⟨[Item.Literal "/50x.html".data]⟩⟩ :
               ErrorPage).response_code = .Target ∧
           codesOf sampleCodeParse
             ([⟨[Item.Literal "500".data]⟩, ⟨[Item.Literal "502".data]⟩,
               ⟨[Item.Literal "503".data]⟩, ⟨[Item.Literal "=503".data]⟩,
               ⟨[Item.Literal "/50x.html".data]⟩] : List Value).dropLast =
             .ok (⟨[500, 502, 503], .Replace 503,
               ⟨[Item.Literal "/50x.html".data]⟩⟩ : ErrorPage).codes))) :=
  error_page_marker_rule sampleCodeParse _ _ (by decide)

/-- The status-code loop reports "only last argument of error_codes can
contain variables" when it contains a `Variable`/multi-part value, none of
its values is empty, and the classifier succeeds on every single-literal
value: the loop then runs error-free up to the first bad-shaped value,
whose `lit` failure is that exact message. -/
theorem codesOf_error_of_bad (cp : CodeParser) : ∀ (l : List Value),
    (∃ a ∈ l, (∃ n, Item.Variable n ∈ a.data) ∨ 1 < a.data.length) →
    (∀ a ∈ l, a.data ≠ []) →
    (∀ a ∈ l, ∀ t, a.data = [Item.Literal t] → ∃ c, cp t = .ok c) →
    codesOf cp l = .error "only last argument of error_codes can contain variables" := by
  intro l
  induction l with
  | nil =>
    rintro ⟨a, ha, _⟩ _ _
    cases ha
  | cons x xs ih =>
    rintro ⟨a, ha, hab⟩ hne hcls
    have key : codesOf cp (x :: xs) =
        ((lit x).bind fun t => (cp t).map Code.as_code) >>= fun c0 =>
          codesOf cp xs >>= fun cs => pure (c0 :: cs) := by
      rw [codesOf, List.mapM_cons]
      rfl
    rcases hd : x.data with _ | ⟨i, tl⟩
    · exact absurd hd (hne x (List.mem_cons_self x xs))
    · rcases i with t | n
      · rcases tl with _ | ⟨j, tl'⟩
        · have hlitx : lit x = .ok t := by rw [lit.eq_def, hd]
          obtain ⟨c0, hc0⟩ := hcls x (List.mem_cons_self x xs) t hd
          have hax : a ≠ x := by
            intro he
            subst he
            rcases hab with ⟨n, hn⟩ | hlen
            · rw [hd] at hn
              simp at hn
            · rw [hd] at hlen
              simp at hlen
          have hmem : a ∈ xs := by
            rcases List.mem_cons.mp ha with he | hmem'
            · exact absurd he hax
            · exact hmem'
          have hrec := ih ⟨a, hmem, hab⟩
            (fun b hb => hne b (List.mem_cons_of_mem _ hb))
            (fun b hb => hcls b (List.mem_cons_of_mem _ hb))
          rw [key, hlitx]
          show ((cp t).map Code.as_code >>= fun c0 =>
            codesOf cp xs >>= fun cs => pure (c0 :: cs)) = _
          rw [hc0]
          show (codesOf cp xs >>= fun cs => pure (Code.as_code c0 :: cs)) = _
          rw [hrec]
          rfl
        · have hlitx : lit x =
              .error "only last argument of error_codes can contain variables" := by
            rw [lit.eq_def, hd]
          rw [key, hlitx]
          rfl
      · have hlitx : lit x =
            .error "only last argument of error_codes can contain variables" := by
          rcases tl with _ | ⟨j, tl'⟩ <;> rw [lit.eq_def, hd]
        rw [key, hlitx]
        rfl

/-- When some status-code argument is `Variable`/multi-part, none of them
is empty, and the classifier succeeds on the popped marker and on every
single-literal status-code argument, `error_page` fails with exactly the
"only last argument of error_codes can contain variables" message (the
bad argument's shape check is then the first failing check the parse
reaches, whether it sits in the marker position or in the codes loop). -/
theorem errorPage_bad_arg_msg (cp : CodeParser) (v : List Value)
    (hbad : ∃ a ∈ specCodeArgs v, (∃ n, Item.Variable n ∈ a.data) ∨ 1 < a.data.length)
    (hne : ∀ a ∈ specCodeArgs v, a.data ≠ [])
    (hmk : ∀ m, v.dropLast.getLast? = some m → isMarkerVal m = true →
        ∀ t, m.data = [Item.Literal t] → t ≠ ['='] → ∃ c, cp (t.drop 1) = .ok c)
    (hcls : ∀ a ∈ specCodeArgs v, ∀ t, a.data = [Item.Literal t] → ∃ c, cp t = .ok c) :
    errorPage cp v = .error "only last argument of error_codes can contain variables" := by
  cases hu : v.getLast? with
  | none =>
    exfalso
    obtain ⟨a, ha, _⟩ := hbad
    simp only [specCodeArgs, hu, List.not_mem_nil] at ha
  | some uri =>
    cases hm : v.dropLast.getLast? with
    | none =>
      exfalso
      obtain ⟨a, ha, _⟩ := hbad
      have hnil : v.dropLast = [] := List.getLast?_eq_none_iff.mp hm
      simp only [specCodeArgs, hu, hm] at ha
      rw [hnil] at ha
      simp at ha
    | some m =>
      have key : errorPage cp v = (isEq m).bind fun b =>
          if b then
            (lit m).bind fun dest =>
              ((if dest = ['='] then Except.ok ErrorPageResponse.Keep
                else (cp (dest.drop 1)).map codeToResponse) :
                  Except String ErrorPageResponse).bind fun rc =>
                (codesOf cp v.dropLast.dropLast).map fun codes => ⟨codes, rc, uri⟩
          else (codesOf cp v.dropLast).map fun codes => ⟨codes, .Target, uri⟩ := by
        rw [errorPage.eq_def, hu, hm]
      rcases hd : m.data with _ | ⟨i, tl⟩
      · exfalso
        have hmkv : isMarkerVal m = false := by rw [isMarkerVal, hd]
        have hsc : specCodeArgs v = v.dropLast := by
          simp only [specCodeArgs, hu, hm, hmkv, Bool.false_eq_true, if_false, ite_false]
        rw [hsc] at hne
        exact hne m (mem_of_getLast?_eq hm) hd
      · rcases i with t | n
        · rcases tl with _ | ⟨j, tl'⟩
          · have hlitm : lit m = .ok t := by rw [lit.eq_def, hd]
            cases hsw : startsWithEq t with
            | false =>
              have hmkv : isMarkerVal m = false := by rw [isMarkerVal_single hd, hsw]
              have hsc : specCodeArgs v = v.dropLast := by
                simp only [specCodeArgs, hu, hm, hmkv, Bool.false_eq_true, if_false,
                  ite_false]
              rw [hsc] at hbad hne hcls
              have hloop := codesOf_error_of_bad cp v.dropLast hbad hne hcls
              have hie : isEq m = .ok false := by rw [isEq, hlitm, emap_ok, hsw]
              rw [key, hie]
              show ((codesOf cp v.dropLast).map fun codes =>
                (⟨codes, ErrorPageResponse.Target, uri⟩ : ErrorPage)) = _
              rw [hloop]
              rfl
            | true =>
              have hmkv : isMarkerVal m = true := by rw [isMarkerVal_single hd, hsw]
              have hsc : specCodeArgs v = v.dropLast.dropLast := by
                simp only [specCodeArgs, hu, hm, hmkv, if_true]
              rw [hsc] at hbad hne hcls
              have hloop := codesOf_error_of_bad cp v.dropLast.dropLast hbad hne hcls
              have hie : isEq m = .ok true := by rw [isEq, hlitm, emap_ok, hsw]
              rw [key, hie]
              show ((lit m).bind fun dest =>
                ((if dest = ['='] then Except.ok ErrorPageResponse.Keep
                  else (cp (dest.drop 1)).map codeToResponse) :
                    Except String ErrorPageResponse).bind fun rc =>
                  (codesOf cp v.dropLast.dropLast).map fun codes =>
                    (⟨codes, rc, uri⟩ : ErrorPage)) = _
              rw [hlitm]
              show (((if t = ['='] then Except.ok ErrorPageResponse.Keep
                  else (cp (t.drop 1)).map codeToResponse) :
                    Except String ErrorPageResponse).bind fun rc =>
                  (codesOf cp v.dropLast.dropLast).map fun codes =>
                    (⟨codes, rc, uri⟩ : ErrorPage)) = _
              by_cases he : t = ['=']
              · rw [if_pos he]
                show ((codesOf cp v.dropLast.dropLast).map fun codes =>
                  (⟨codes, ErrorPageResponse.Keep, uri⟩ : ErrorPage)) = _
                rw [hloop]
                rfl
              · obtain ⟨c, hc⟩ := hmk m hm hmkv t hd he
                rw [if_neg he, hc]
                show ((codesOf cp v.dropLast.dropLast).map fun codes =>
                  (⟨codes, codeToResponse c, uri⟩ : ErrorPage)) = _
                rw [hloop]
                rfl
          · have hie : isEq m =
                .error "only last argument of error_codes can contain variables" := by
              rw [isEq, lit.eq_def, hd]
              rfl
            rw [key, hie]
            rfl
        · have hie : isEq m =
              .error "only last argument of error_codes can contain variables" := by
            rcases tl with _ | ⟨j, tl'⟩ <;> (rw [isEq, lit.eq_def, hd]; rfl)
          rw [key, hie]
          rfl

/-- Claim C8 (amended): every argument other than the uri and the
(possibly popped) response-code marker must be a value with exactly one
`Literal` part: on success each literal is classified by the external
classifier and its code appended to `codes` in argument order; any such
argument containing a `Variable` part or more than one part makes the
parse fail, and when additionally none of these arguments is empty (zero
parts) and the classifier succeeds on the popped marker's text after `=`
and on every single-`Literal` argument among them, the reported error is
exactly "only last argument of error_codes can contain variables". -/
theorem error_page_code_args (cp : CodeParser) (v : List Value) :
    (∀ r, errorPage cp v = .ok r →
        codesOf cp (specCodeArgs v) = .ok r.codes ∧
        ∀ a ∈ specCodeArgs v, ∃ t, a.data = [Item.Literal t]) ∧
    ((∃ a ∈ specCodeArgs v, (∃ n, Item.Variable n ∈ a.data) ∨ 1 < a.data.length) →
      ∃ e, errorPage cp v = .error e) ∧
    ((∃ a ∈ specCodeArgs v, (∃ n, Item.Variable n ∈ a.data) ∨ 1 < a.data.length) →
      (∀ a ∈ specCodeArgs v, a.data ≠ []) →
      (∀ m, v.dropLast.getLast? = some m → isMarkerVal m = true →
          ∀ t, m.data = [Item.Literal t] → t ≠ ['='] → ∃ c, cp (t.drop 1) = .ok c) →
      (∀ a ∈ specCodeArgs v, ∀ t, a.data = [Item.Literal t] → ∃ c, cp t = .ok c) →
      errorPage cp v =
        .error "only last argument of error_codes can contain variables") := by
  have main : ∀ r, errorPage cp v = .ok r →
      codesOf cp (specCodeArgs v) = .ok r.codes ∧
      ∀ a ∈ specCodeArgs v, ∃ t, a.data = [Item.Literal t] := by
    intro r h
    obtain ⟨uri, hu, _, hcase⟩ := errorPage_ok_cases cp v r h
    have hargs : codesOf cp (specCodeArgs v) = .ok r.codes := by
      rcases hcase with ⟨hm, _, hc⟩ | ⟨m, hm, ⟨hmk, _, hcodes⟩ | ⟨hmk, _, hcodes⟩⟩
      · simp only [specCodeArgs, hu, hm]
        rw [List.getLast?_eq_none_iff.mp hm, hc]
        rfl
      · simp only [specCodeArgs, hu, hm, hmk, if_true]
        exact hcodes
      · simp only [specCodeArgs, hu, hm, hmk, Bool.false_eq_true, if_false, ite_false]
        exact hcodes
    refine ⟨hargs, fun a ha => ?_⟩
    obtain ⟨t, hlit⟩ := codesOf_ok_lit hargs a ha
    exact ⟨t, lit_ok_shape hlit⟩
  refine ⟨main, ?_, fun hbad hne hmk hcls => errorPage_bad_arg_msg cp v hbad hne hmk hcls⟩
  rintro ⟨a, ha, hbad⟩
  cases h : errorPage cp v with
  | error e => exact ⟨e, rfl⟩
  | ok r =>
    obtain ⟨_, hall⟩ := main r h
    obtain ⟨t, hshape⟩ := hall a ha
    rcases hbad with ⟨n, hn⟩ | hlen
    · rw [hshape] at hn
      simp at hn
    · rw [hshape] at hlen
      simp at hlen

/-- Counterexample to C8 as stated: four inputs, each with a status-code
argument containing a `Variable` part, where the parse fails but not with
the claimed "only last argument of error_codes can contain variables"
message — (1) an empty argument in the marker position and (2) an empty
argument hit first by the codes loop both report "empty error codes are
not supported"; a classifier failure (3) on an earlier code literal or
(4) on the popped marker reports the classifier's own error.  These four
preemptions force exactly the side conditions of the amended claim. -/
theorem error_page_code_args_counterexample :
    ((∃ a ∈ specCodeArgs
        [⟨[Item.Variable ['x']]⟩, ⟨[]⟩, ⟨[Item.Literal "/x".data]⟩],
        ∃ n, Item.Variable n ∈ a.data) ∧
     errorPage sampleCodeParse
        [⟨[Item.Variable ['x']]⟩, ⟨[]⟩, ⟨[Item.Literal "/x".data]⟩] =
       .error "empty error codes are not supported") ∧
    ((∃ a ∈ specCodeArgs
        [⟨[]⟩, ⟨[Item.Variable ['x']]⟩, ⟨[Item.Literal "404".data]⟩,
         ⟨[Item.Literal "/x".data]⟩],
        ∃ n, Item.Variable n ∈ a.data) ∧
     errorPage sampleCodeParse
        [⟨[]⟩, ⟨[Item.Variable ['x']]⟩, ⟨[Item.Literal "404".data]⟩,
         ⟨[Item.Literal "/x".data]⟩] =
       .error "empty error codes are not supported") ∧
    ((∃ a ∈ specCodeArgs
        [⟨[Item.Literal "9x".data]⟩, ⟨[Item.Variable ['x']]⟩,
         ⟨[Item.Literal "404".data]⟩, ⟨[Item.Literal "/x".data]⟩],
        ∃ n, Item.Variable n ∈ a.data) ∧
     errorPage sampleCodeParse
        [⟨[Item.Literal "9x".data]⟩, ⟨[Item.Variable ['x']]⟩,
         ⟨[Item.Literal "404".data]⟩, ⟨[Item.Literal "/x".data]⟩] =
       .error "invalid status code") ∧
    ((∃ a ∈ specCodeArgs
        [⟨[Item.Variable ['x']]⟩, ⟨[Item.Literal "=zz".data]⟩,
         ⟨[Item.Literal "/x".data]⟩],
        ∃ n, Item.Variable n ∈ a.data) ∧
     errorPage sampleCodeParse
        [⟨[Item.Variable ['x']]⟩, ⟨[Item.Literal "=zz".data]⟩,
         ⟨[Item.Literal "/x".data]⟩] =
       .error "invalid status code") ∧
    ("empty error codes are not supported" : String) ≠
      "only last argument of error_codes can contain variables" ∧
    ("invalid status code" : String) ≠
      "only last argument of error_codes can contain variables" :=
  ⟨⟨⟨⟨[Item.Variable ['x']]⟩, by decide, ⟨['x'], by decide⟩⟩, by decide⟩,
   ⟨⟨⟨[Item.Variable ['x']]⟩, by decide, ⟨['x'], by decide⟩⟩, by decide⟩,
   ⟨⟨⟨[Item.Variable ['x']]⟩, by decide, ⟨['x'], by decide⟩⟩, by decide⟩,
   ⟨⟨⟨[Item.Variable ['x']]⟩, by decide, ⟨['x'], by decide⟩⟩, by decide⟩,
   by decide, by decide⟩

/-- Witness for C8: the success side at `error_page 404 /404.html;`, the
failure and message sides at `error_page $y /u;` (where no empty argument
or classifier failure preempts, so the message clause fires). -/
theorem error_page_code_args_witness :
    (codesOf sampleCodeParse (specCodeArgs
        [⟨[Item.Literal "404".data]⟩, ⟨[Item.Literal "/404.html".data]⟩]) =
      .ok (⟨[404], .Target, ⟨[Item.Literal "/404.html".data]⟩⟩ : ErrorPage).codes ∧
     ∀ a ∈ specCodeArgs
        [⟨[Item.Literal "404".data]⟩, ⟨[Item.Literal "/404.html".data]⟩],
       ∃ t, a.data = [Item.Literal t]) ∧
    (∃ e, errorPage sampleCodeParse
        [⟨[Item.Variable ['y']]⟩, ⟨[Item.Literal "/u".data]⟩] = .error e) ∧
    errorPage sampleCodeParse
        [⟨[Item.Variable ['y']]⟩, ⟨[Item.Literal "/u".data]⟩] =
      .error "only last argument of error_codes can contain variables" :=
  ⟨(error_page_code_args sampleCodeParse _).1
      ⟨[404], .Target, ⟨[Item.Literal "/404.html".data]⟩⟩ (by decide),
   (error_page_code_args sampleCodeParse _).2.1
      ⟨⟨[Item.Variable ['y']]⟩, by decide, Or.inl ⟨['y'], by decide⟩⟩,
   (error_page_code_args sampleCodeParse _).2.2
      ⟨⟨[Item.Variable ['y']]⟩, by decide, Or.inl ⟨['y'], by decide⟩⟩
      (by decide)
      (by
        intro m hm hm2 t ht hte
        have hm' : (some (⟨[Item.Variable ['y']]⟩ : Value) : Option Value) = some m := hm
        rw [← Option.some.inj hm'] at hm2
        exact absurd hm2 (by decide))
      (by
        intro a ha t ht
        have ha' : a ∈ [(⟨[Item.Variable ['y']]⟩ : Value)] := ha
        have he : a = ⟨[Item.Variable ['y']]⟩ := by simpa using ha'
        rw [he] at ht
        simp at ht)⟩

/-! ## `listen` fold lemmas (C7) -/

theorem lastWins_eq {α : Type} : ∀ (l : List α) (old : Option α),
    lastWins old l = (l.getLast?).elim old some := by
  intro l
  induction l with
  | nil => intro old; rfl
  | cons x l ih =>
    intro old
    have h0 : lastWins old (x :: l) = lastWins (some x) l := rfl
    rw [h0, ih]
    cases hl : l.getLast? with
    | none =>
      have : l = [] := List.getLast?_eq_none_iff.mp hl
      subst this
      simp
    | some y =>
      have hne : l ≠ [] := by
        intro he
        rw [he] at hl
        cases hl
      have hcc : (x :: l).getLast? = l.getLast? := by
        cases l with
        | nil => exact absurd rfl hne
        | cons z zs => exact List.getLast?_cons_cons
      rw [hcc, hl]
      rfl

theorem lastWins_none {α : Type} (l : List α) : lastWins none l = l.getLast? := by
  rw [lastWins_eq]
  cases l.getLast? <;> rfl

theorem listenFold_address : ∀ (items : List ListenParts) (lst : Listen),
    (listenFold lst items).address = lst.address := by
  intro items
  induction items with
  | nil => intro lst; rfl
  | cons i rest ih =>
    intro lst
    have h0 : listenFold lst (i :: rest) = listenFold (listenStep lst i) rest := rfl
    rw [h0, ih]
    cases i <;> rfl

theorem listenFold_default_server : ∀ (items : List ListenParts) (lst : Listen),
    (listenFold lst items).default_server =
      (lst.default_server || items.any isDefaultServer) := by
  intro items
  induction items with
  | nil => intro lst; simp [listenFold]
  | cons i rest ih =>
    intro lst
    have h0 : listenFold lst (i :: rest) = listenFold (listenStep lst i) rest := rfl
    rw [h0, ih, List.any_cons]
    cases i <;> simp [listenStep, isDefaultServer, Bool.or_assoc]

theorem listenFold_ssl : ∀ (items : List ListenParts) (lst : Listen),
    (listenFold lst items).ssl = (lst.ssl || items.any isSsl) := by
  intro items
  induction items with
  | nil => intro lst; simp [listenFold]
  | cons i rest ih =>
    intro lst
    have h0 : listenFold lst (i :: rest) = listenFold (listenStep lst i) rest := rfl
    rw [h0, ih, List.any_cons]
    cases i <;> simp [listenStep, isSsl, Bool.or_assoc]

theorem listenFold_proxy_protocol : ∀ (items : List ListenParts) (lst : Listen),
    (listenFold lst items).proxy_protocol =
      (lst.proxy_protocol || items.any isProxyProtocol) := by
  intro items
  induction items with
  | nil => intro lst; simp [listenFold]
  | cons i rest ih =>
    intro lst
    have h0 : listenFold lst (i :: rest) = listenFold (listenStep lst i) rest := rfl
    rw [h0, ih, List.any_cons]
    cases i <;> simp [listenStep, isProxyProtocol, Bool.or_assoc]

theorem listenFold_deferred : ∀ (items : List ListenParts) (lst : Listen),
    (listenFold lst items).deferred = (lst.deferred || items.any isDeferred) := by
  intro items
  induction items with
  | nil => intro lst; simp [listenFold]
  | cons i rest ih =>
    intro lst
    have h0 : listenFold lst (i :: rest) = listenFold (listenStep lst i) rest := rfl
    rw [h0, ih, List.any_cons]
    cases i <;> simp [listenStep, isDeferred, Bool.or_assoc]

theorem listenFold_bind : ∀ (items : List ListenParts) (lst : Listen),
    (listenFold lst items).bind = (lst.bind || items.any isBind) := by
  intro items
  induction items with
  | nil => intro lst; simp [listenFold]
  | cons i rest ih =>
    intro lst
    have h0 : listenFold lst (i :: rest) = listenFold (listenStep lst i) rest := rfl
    rw [h0, ih, List.any_cons]
    cases i <;> simp [listenStep, isBind, Bool.or_assoc]

theorem listenFold_reuseport : ∀ (items : List ListenParts) (lst : Listen),
    (listenFold lst items).reuseport = (lst.reuseport || items.any isReusePort) := by
  intro items
  induction items with
  | nil => intro lst; simp [listenFold]
  | cons i rest ih =>
    intro lst
    have h0 : listenFold lst (i :: rest) = listenFold (listenStep lst i) rest := rfl
    rw [h0, ih, List.any_cons]
    cases i <;> simp [listenStep, isReusePort, Bool.or_assoc]

theorem listenFold_ext : ∀ (items : List ListenParts) (lst : Listen),
    (listenFold lst items).ext = lastWins lst.ext (items.filterMap extOf) := by
  intro items
  induction items with
  | nil => intro lst; rfl
  | cons i rest ih =>
    intro lst
    have h0 : listenFold lst (i :: rest) = listenFold (listenStep lst i) rest := rfl
    rw [h0, ih, List.filterMap_cons]
    cases i <;> simp [listenStep, extOf, lastWins]

theorem listenFold_setfib : ∀ (items : List ListenParts) (lst : Listen),
    (listenFold lst items).setfib = lastWins lst.setfib (items.filterMap setfibOf) := by
  intro items
  induction items with
  | nil => intro lst; rfl
  | cons i rest ih =>
    intro lst
    have h0 : listenFold lst (i :: rest) = listenFold (listenStep lst i) rest := rfl
    rw [h0, ih, List.filterMap_cons]
    cases i <;> simp [listenStep, setfibOf, lastWins]

theorem listenFold_fastopen : ∀ (items : List ListenParts) (lst : Listen),
    (listenFold lst items).fastopen =
      lastWins lst.fastopen (items.filterMap fastopenOf) := by
  intro items
  induction items with
  | nil => intro lst; rfl
  | cons i rest ih =>
    intro lst
    have h0 : listenFold lst (i :: rest) = listenFold (listenStep lst i) rest := rfl
    rw [h0, ih, List.filterMap_cons]
    cases i <;> simp [listenStep, fastopenOf, lastWins]

theorem listenFold_backlog : ∀ (items : List ListenParts) (lst : Listen),
    (listenFold lst items).backlog =
      lastWins lst.backlog (items.filterMap backlogOf) := by
  intro items
  induction items with
  | nil => intro lst; rfl
  | cons i rest ih =>
    intro lst
    have h0 : listenFold lst (i :: rest) = listenFold (listenStep lst i) rest := rfl
    rw [h0, ih, List.filterMap_cons]
    cases i <;> simp [listenStep, backlogOf, lastWins]

theorem listenFold_rcvbuf : ∀ (items : List ListenParts) (lst : Listen),
    (listenFold lst items).rcvbuf =
      lastWins lst.rcvbuf (items.filterMap rcvbufOf) := by
  intro items
  induction items with
  | nil => intro lst; rfl
  | cons i rest ih =>
    intro lst
    have h0 : listenFold lst (i :: rest) = listenFold (listenStep lst i) rest := rfl
    rw [h0, ih, List.filterMap_cons]
    cases i <;> simp [listenStep, rcvbufOf, lastWins]

theorem listenFold_sndbuf : ∀ (items : List ListenParts) (lst : Listen),
    (listenFold lst items).sndbuf =
      lastWins lst.sndbuf (items.filterMap sndbufOf) := by
  intro items
  induction items with
  | nil => intro lst; rfl
  | cons i rest ih =>
    intro lst
    have h0 : listenFold lst (i :: rest) = listenFold (listenStep lst i) rest := rfl
    rw [h0, ih, List.filterMap_cons]
    cases i <;> simp [listenStep, sndbufOf, lastWins]

theorem listenFold_ipv6only : ∀ (items : List ListenParts) (lst : Listen),
    (listenFold lst items).ipv6only =
      lastWins lst.ipv6only (items.filterMap ipv6onlyOf) := by
  intro items
  induction items with
  | nil => intro lst; rfl
  | cons i rest ih =>
    intro lst
    have h0 : listenFold lst (i :: rest) = listenFold (listenStep lst i) rest := rfl
    rw [h0, ih, List.filterMap_cons]
    cases i <;> simp [listenStep, ipv6onlyOf, lastWins]

/-- Claim C7: folding recognized `listen` options into the record gives,
for every option-valued field, the payload of the *last* occurrence of
that option (`(·.filterMap …).getLast?`), and gives `true` for a boolean
flag exactly when the flag occurs at least once (`List.any`) — flags are
never reset to `false`.  In particular
`listen *:80 ipv6only=on ipv6only=off;` parses to `ipv6only = some false`
(last write wins). -/
theorem listen_options_fold :
    (∀ (addr : Address) (items : List ListenParts),
      (listenFold (Listen.new addr) items).address = addr ∧
      (listenFold (Listen.new addr) items).default_server =
        items.any isDefaultServer ∧
      (listenFold (Listen.new addr) items).ssl = items.any isSsl ∧
      (listenFold (Listen.new addr) items).proxy_protocol =
        items.any isProxyProtocol ∧
      (listenFold (Listen.new addr) items).deferred = items.any isDeferred ∧
      (listenFold (Listen.new addr) items).bind = items.any isBind ∧
      (listenFold (Listen.new addr) items).reuseport = items.any isReusePort ∧
      (listenFold (Listen.new addr) items).ext = (items.filterMap extOf).getLast? ∧
      (listenFold (Listen.new addr) items).setfib =
        (items.filterMap setfibOf).getLast? ∧
      (listenFold (Listen.new addr) items).fastopen =
        (items.filterMap fastopenOf).getLast? ∧
      (listenFold (Listen.new addr) items).backlog =
        (items.filterMap backlogOf).getLast? ∧
      (listenFold (Listen.new addr) items).rcvbuf =
        (items.filterMap rcvbufOf).getLast? ∧
      (listenFold (Listen.new addr) items).sndbuf =
        (items.filterMap sndbufOf).getLast? ∧
      (listenFold (Listen.new addr) items).ipv6only =
        (items.filterMap ipv6onlyOf).getLast?) ∧
    (∀ ipParse, listenDirective ipParse "*:80".data
        ["ipv6only=on".data, "ipv6only=off".data] =
      .ok { Listen.new (.StarPort 80) with ipv6only := some false }) := by
  refine ⟨fun addr items => ?_, fun _ => rfl⟩
  refine ⟨listenFold_address items _,
    by rw [listenFold_default_server]; simp [Listen.new],
    by rw [listenFold_ssl]; simp [Listen.new],
    by rw [listenFold_proxy_protocol]; simp [Listen.new],
    by rw [listenFold_deferred]; simp [Listen.new],
    by rw [listenFold_bind]; simp [Listen.new],
    by rw [listenFold_reuseport]; simp [Listen.new],
    by rw [listenFold_ext]; exact lastWins_none _,
    by rw [listenFold_setfib]; exact lastWins_none _,
    by rw [listenFold_fastopen]; exact lastWins_none _,
    by rw [listenFold_backlog]; exact lastWins_none _,
    by rw [listenFold_rcvbuf]; exact lastWins_none _,
    by rw [listenFold_sndbuf]; exact lastWins_none _,
    by rw [listenFold_ipv6only]; exact lastWins_none _⟩

end NginxConfig
